import Mathlib

/-!
Verification of the h annotation-server slice.

Shallow embedding of the Python source under src/:
  - h/models.py: the annotation record's ACL computation, the quote and
    replies derived properties, the JSON column codec, and the search-index
    settings update;
  - h/formatters/annotation_flag.py: the flag formatter cache;
  - h/services/annotation_json_presentation.py: the JSON presentation
    overlay.

Python dicts whose keys matter only through lookup are embedded as functions
into Option; dicts whose iteration order matters (the permissions mapping,
the reply child table) are embedded as association lists in insertion order.
Python exceptions become Except.
-/

namespace H

/-! ### ACL computation (models.py, `__acl__`)

Pyramid principals: Everyone and Authenticated are distinguished marker
values; any other principal is a literal string.  The only ACE action used
is Allow; the permission slot is either a concrete action string or the
ALL_PERMISSIONS wildcard. -/

inductive Principal : Type where
  | everyone : Principal
  | authenticated : Principal
  | literal (s : String) : Principal
  deriving DecidableEq, Repr

inductive AclPermission : Type where
  | allPermissions : AclPermission
  | act (s : String) : AclPermission
  deriving DecidableEq, Repr

/-- One ACL rule `(Allow, principal, action)`; the Allow marker is implicit
because the source never emits a Deny rule. -/
structure AclRule : Type where
  principal : Principal
  action : AclPermission
  deriving DecidableEq, Repr

/-- The two exceptions `__acl__` can raise. -/
inductive AclError : Type where
  | notImplementedError (msg : String) : AclError
  | valueError (msg : String) : AclError
  deriving DecidableEq, Repr

/-- Python's `str.startswith`, stated over the character list so that it is
kernel-computable. -/
def strStartsWith (s pre : String) : Bool :=
  pre.data.isPrefixOf s.data

/-- Lexicographic less-or-equal on character lists by code point: Python's
string comparison, stated so that it is kernel-computable. -/
def charListLe : List Char → List Char → Bool
  | [], _ => true
  | _ :: _, [] => false
  | a :: as, b :: bs =>
    if a.toNat < b.toNat then true
    else if b.toNat < a.toNat then false
    else charListLe as bs

/-- Python's `s <= t` on strings. -/
def strLe (s t : String) : Bool :=
  charListLe s.data t.data

/-- Conversion of one annotator-store role string to a pyramid principal:
the body of the inner loop of `Annotation.__acl__` (models.py lines
108-124). -/
def resolveRole (role : String) : Except AclError Principal :=
  if strStartsWith role "group:" then
    if role = "group:__world__" then .ok .everyone
    else if role = "group:__authenticated__" then .ok .authenticated
    else if role = "group:__consumer__" then
      .error (.notImplementedError "API consumer groups")
    else .ok (.literal role)
  else if strStartsWith role "acct:" then .ok (.literal role)
  else .error (.valueError ("Unrecognized role " ++ role))

/-- The inner loop of `__acl__` over one action's role list. -/
def rulesForAction (action : String) : List String → Except AclError (List AclRule)
  | [] => .ok []
  | role :: roles =>
    match resolveRole role with
    | .error e => .error e
    | .ok p =>
      match rulesForAction action roles with
      | .error e => .error e
      | .ok rest => .ok ({ principal := p, action := .act action } :: rest)

/-- The outer loop of `__acl__` over the permissions mapping
(action-major, then role), accumulating rules in iteration order. -/
def aclOfPermissions : List (String × List String) → Except AclError (List AclRule)
  | [] => .ok []
  | (action, roles) :: rest =>
    match rulesForAction action roles with
    | .error e => .error e
    | .ok rs =>
      match aclOfPermissions rest with
      | .error e => .error e
      | .ok more => .ok (rs ++ more)

/-- `Annotation.__acl__` (models.py lines 104-134): convert every
(action, role) pair, and fall back to the admin-party rule when the
converted list is empty.  The permissions argument is the annotation's
`permissions` mapping, `[]` when the key is absent. -/
def annotationAcl (permissions : List (String × List String)) :
    Except AclError (List AclRule) :=
  match aclOfPermissions permissions with
  | .error e => .error e
  | .ok acl =>
    if acl.isEmpty then
      .ok [{ principal := .everyone, action := .allPermissions }]
    else .ok acl

/-- A role the spec calls recognized: a `group:` role other than the
consumer group, or an `acct:` role. -/
def recognizedRole (role : String) : Prop :=
  (strStartsWith role "group:" ∧ role ≠ "group:__consumer__") ∨
    (¬ strStartsWith role "group:" ∧ strStartsWith role "acct:")

instance : DecidablePred recognizedRole := fun _ =>
  inferInstanceAs (Decidable (_ ∨ _))

/-- A role the spec calls fatal: the unimplemented consumer group, or a
role starting with neither recognized prefix. -/
def fatalRole (role : String) : Prop :=
  role = "group:__consumer__" ∨
    (¬ strStartsWith role "group:" ∧ ¬ strStartsWith role "acct:")

instance : DecidablePred fatalRole := fun _ =>
  inferInstanceAs (Decidable (_ ∨ _))

/-- The principal the spec assigns to a recognized role. -/
def specPrincipal (role : String) : Principal :=
  if role = "group:__world__" then .everyone
  else if role = "group:__authenticated__" then .authenticated
  else .literal role

/-- The flat rule list the spec describes: one rule per (action, role)
pair, in permissions-iteration order. -/
def specRules (permissions : List (String × List String)) : List AclRule :=
  permissions.flatMap fun p =>
    p.2.map fun role => { principal := specPrincipal role, action := .act p.1 }

/-! ### The quote property (models.py, `Annotation.quote`)

A selector dict: the source reads `selector['type']` always and
`selector['exact']` only on TextQuoteSelector entries, so both are embedded
as fields.  A target dict: the source reads only `target['selector']`. -/

structure Selector : Type where
  type_ : String
  exact : String
  deriving DecidableEq, Repr

structure Target : Type where
  selector : List Selector
  deriving DecidableEq, Repr

/-- Accumulation over one target's selectors: the inner loop of `quote`. -/
def quoteOfSelectors (q : String) : List Selector → String
  | [] => q
  | s :: rest =>
    if s.type_ = "TextQuoteSelector" then
      quoteOfSelectors (q ++ s.exact ++ " ") rest
    else quoteOfSelectors q rest

/-- `Annotation.quote` (models.py lines 258-268).  The argument is `none`
when the annotation has no `target` key, `some targets` otherwise. -/
def quote (target? : Option (List Target)) : String :=
  match target? with
  | none => ""
  | some targets => targets.foldl (fun q t => quoteOfSelectors q t.selector) ""

/-- The exact values of all TextQuoteSelector selectors across all targets,
in source order (spec-side helper for stating the quote claims). -/
def textQuoteExacts (targets : List Target) : List String :=
  targets.flatMap fun t =>
    t.selector.filterMap fun s =>
      if s.type_ = "TextQuoteSelector" then some s.exact else none

/-! ### JSON column codec (models.py, `JSONEncodedDict`)

`json.dumps` and `json.loads` are Python standard-library collaborators,
not code of this repository; they are parameters `dumps` and `loads` of the
embedding, and the round-trip claim carries their inverse law as a
hypothesis.  `none` is Python None. -/

/-- `JSONEncodedDict.process_bind_param` (models.py lines 47-51). -/
def process_bind_param (dumps : α → String) : Option α → Option String
  | none => none
  | some v => some (dumps v)

/-- `JSONEncodedDict.process_result_value` (models.py lines 53-56). -/
def process_result_value (loads : String → α) : Option String → Option α
  | none => none
  | some s => some (loads s)

/-! ### Search-index settings update (models.py, `Annotation.update_settings`)

The elasticsearch index is a state with an open/closed bit and current
analysis settings; `put_settings` is an external call that may fail, so it
is a parameter returning Except.  The try/finally is compiled into both
match arms: the open call runs on the post-close state whether or not the
put succeeded, and the put's exception is reported alongside the final
state. -/

structure ESIndex (σ : Type) : Type where
  opened : Bool
  settings : σ

def closeIndex (s : ESIndex σ) : ESIndex σ := { s with opened := false }

def openIndex (s : ESIndex σ) : ESIndex σ := { s with opened := true }

/-- `Annotation.update_settings` (models.py lines 227-237): close, try to
put settings, and in all cases reopen; returns the exception from the put
step (if any) together with the final index state. -/
def update_settings (put : ESIndex σ → Except ε (ESIndex σ)) (s : ESIndex σ) :
    Option ε × ESIndex σ :=
  let closed := closeIndex s
  match put closed with
  | .ok s' => (none, openIndex s')
  | .error e => (some e, openIndex closed)

/-! ### JSON presentation service
(services/annotation_json_presentation.py, `present`)

A JSON dict is embedded as a partial map from keys to values; a formatter
is a function from annotations to such a dict; the base presenter
(`presenters.AnnotationJSONPresenter(...).asdict()`, a collaborator outside
this slice) is the `asdict` parameter. -/

def JsonDict (V : Type) : Type := String → Option V

/-- Python `dict.update`: every key of `m` overwrites `d`. -/
def dictUpdate (d m : JsonDict V) : JsonDict V :=
  fun k => match m k with
  | some v => some v
  | none => d k

/-- The annotation-plus-context resource; `present` touches only its
`annotation` attribute. -/
structure AnnotationResource (Ann : Type) : Type where
  ann : Ann

/-- `AnnotationJSONPresentationService.present`
(annotation_json_presentation.py lines 22-29): the base presenter dict
updated by each configured formatter's format result, in order. -/
def present (asdict : AnnotationResource Ann → JsonDict V)
    (formatters : List (Ann → JsonDict V))
    (resource : AnnotationResource Ann) : JsonDict V :=
  formatters.foldl (fun data f => dictUpdate data (f resource.ann)) (asdict resource)

/-! ### Flag formatter (formatters/annotation_flag.py)

The database is the list of Flag rows; a query is a filter over it, and the
number of round trips each method issues is returned alongside its result
so that the no-further-query claims are statable.  The per-request cache is
a partial map from annotation id to bool. -/

structure Flag : Type where
  annotation_id : String
  user : String
  deriving DecidableEq, Repr

def Cache : Type := String → Option Bool

def cacheInsert (c : Cache) (k : String) (b : Bool) : Cache :=
  fun k' => if k' = k then some b else c k'

/-- The formatter's per-request state: the resolved authenticated user and
the local cache of fetched flags. -/
structure FlagFormatter : Type where
  authenticated_user : Option String
  cache : Cache

/-- A fresh formatter as built by `AnnotationFlagFormatter.__init__`:
empty cache. -/
def FlagFormatter.init (user : Option String) : FlagFormatter :=
  { authenticated_user := user, cache := fun _ => none }

/-- Whether the database holds a flag row for this annotation id and user
(spec-side helper for stating the preload claim). -/
def hasFlag (db : List Flag) (id_ u : String) : Bool :=
  db.any fun f => f.annotation_id == id_ && f.user == u

/-- `AnnotationFlagFormatter.preload` (annotation_flag.py lines 26-41):
no-op without a user; otherwise one query for all (id, user) flags, cache
True for each hit, then explicitly False for every requested id still
missing from the cache.  Second component counts queries issued. -/
def preload (db : List Flag) (ids : List String) (st : FlagFormatter) :
    FlagFormatter × Nat :=
  match st.authenticated_user with
  | none => (st, 0)
  | some u =>
    let query := db.filter fun f => ids.contains f.annotation_id ∧ f.user = u
    let cache1 := query.foldl (fun c f => cacheInsert c f.annotation_id true) st.cache
    let missing := ids.filter fun i => cache1 i = none
    let cache2 := missing.foldl (fun c i => cacheInsert c i false) cache1
    ({ st with cache := cache2 }, 1)

/-- SQLAlchemy `Query.one_or_none`: none for no row, the row if unique,
MultipleResultsFound otherwise. -/
def one_or_none (rows : List Flag) : Except String (Option Flag) :=
  match rows with
  | [] => .ok none
  | [f] => .ok (some f)
  | _ => .error "MultipleResultsFound"

/-- `AnnotationFlagFormatter.load` (annotation_flag.py lines 43-56): False
without a user; the cached value on a cache hit; otherwise one
`one_or_none` query whose existence bit is cached and returned.  Last
component counts queries issued. -/
def load (db : List Flag) (id_ : String) (st : FlagFormatter) :
    Except String (Bool × FlagFormatter × Nat) :=
  match st.authenticated_user with
  | none => .ok (false, st, 0)
  | some u =>
    match st.cache id_ with
    | some b => .ok (b, st, 0)
    | none =>
      match one_or_none (db.filter fun f => f.annotation_id = id_ ∧ f.user = u) with
      | .error e => .error e
      | .ok flag =>
        let b := flag.isSome
        .ok (b, { st with cache := cacheInsert st.cache id_ b }, 1)

/-- `AnnotationFlagFormatter.format` (annotation_flag.py lines 58-60):
a one-key mapping from "flagged" to the loaded bit. -/
def formatFlag (db : List Flag) (annId : String) (st : FlagFormatter) :
    Except String ((String × Bool) × FlagFormatter × Nat) :=
  match load db annId st with
  | .error e => .error e
  | .ok (flagged, st', n) => .ok (("flagged", flagged), st', n)

/-! ### Reply trees (models.py, `Annotation._nestlist` / `Annotation.replies`)

A referrer is embedded with the three fields the computation reads: `id`,
`created` (the date string Python compares lexicographically) and
`references`.  `_nestlist` mutates each referrer dict in place, adding
`reply_count` and `replies`; the embedding instead produces a Node tree.
The child table is an association list in first-seen-parent order, each
value list in append order, mirroring `setdefault` plus `append`.
Python's recursion has no structural bound (a cyclic child table does not
terminate), so `nestlist` takes explicit fuel; every claimed invariant is
proved for all fuel values, hence in particular for any fuel large enough
to reproduce a terminating Python run. -/

structure RawAnn : Type where
  id : String
  created : String
  references : List String
  deriving DecidableEq, Repr

inductive Node : Type where
  | mk (id : String) (created : String) (references : List String)
      (reply_count : Nat) (replies : List Node)
  deriving Repr

def Node.id : Node → String
  | .mk i _ _ _ _ => i

def Node.created : Node → String
  | .mk _ c _ _ _ => c

def Node.references : Node → List String
  | .mk _ _ r _ _ => r

def Node.reply_count : Node → Nat
  | .mk _ _ _ n _ => n

def Node.replies : Node → List Node
  | .mk _ _ _ _ rs => rs

/-- `childTable.setdefault(parent, []); pointer.append(reply)`: append one
referrer under its parent key, creating the key at the end on first use. -/
def tableAppend (t : List (String × List RawAnn)) (k : String) (a : RawAnn) :
    List (String × List RawAnn) :=
  match t with
  | [] => [(k, [a])]
  | (k', l) :: rest =>
    if k' = k then (k', l ++ [a]) :: rest else (k', l) :: tableAppend rest k a

/-- `childTable.get(key)`: the value list, or none for a missing key. -/
def tableGet (t : List (String × List RawAnn)) (k : String) :
    Option (List RawAnn) :=
  match t with
  | [] => none
  | (k', l) :: rest => if k' = k then some l else tableGet rest k

/-- The child-table construction loop of `replies` (models.py lines
279-285), with the accumulated table explicit: each referrer is appended
under the last element of its `references`;
`reply.get('references', [])[-1]` raises IndexError when the chain is
missing or empty. -/
def buildChildTableAux (t : List (String × List RawAnn)) :
    List RawAnn → Except String (List (String × List RawAnn))
  | [] => .ok t
  | reply :: rest =>
    match reply.references.getLast? with
    | none => .error "IndexError"
    | some parent => buildChildTableAux (tableAppend t parent reply) rest

def buildChildTable (referrers : List RawAnn) :
    Except String (List (String × List RawAnn)) :=
  buildChildTableAux [] referrers

/-- Stable insertion of one referrer into a list already sorted by
`created` descending: equal keys keep the incoming element first, which
reproduces Python's stable `sorted(..., reverse=True)`. -/
def insertDesc (a : RawAnn) : List RawAnn → List RawAnn
  | [] => [a]
  | b :: l => if strLe b.created a.created then a :: b :: l else b :: insertDesc a l

/-- `sorted(annotations, key=created, reverse=True)` as a stable insertion
sort (extensionally equal to Python's stable sort on this key). -/
def sortDesc : List RawAnn → List RawAnn
  | [] => []
  | a :: l => insertDesc a (sortDesc l)

/-- `Annotation._nestlist` (models.py lines 239-256): None becomes the
empty list; otherwise sort siblings by `created` descending, then build
each node with its recursively nested children, its `reply_count` being
the children's reply_count sum plus the child count. -/
def nestlist : Nat → List (String × List RawAnn) → Option (List RawAnn) → List Node
  | _, _, none => []
  | 0, _, some _ => []
  | fuel + 1, table, some anns =>
    (sortDesc anns).map fun a =>
      let children := nestlist fuel table (tableGet table a.id)
      .mk a.id a.created a.references
        ((children.map Node.reply_count).sum + children.length) children

/-- `Annotation.replies` (models.py lines 277-288): build the child table
from the referrers, then nest starting from this annotation's own id. -/
def replies (fuel : Nat) (selfId : String) (referrers : List RawAnn) :
    Except String (List Node) :=
  match buildChildTable referrers with
  | .error e => .error e
  | .ok table => .ok (nestlist fuel table (tableGet table selfId))

/-- The number of descendants of a node at all depths (spec-side helper:
children plus, recursively, their descendants). -/
def descCountList : List Node → Nat
  | [] => 0
  | .mk _ _ _ _ rs :: ns => (1 + descCountList rs) + descCountList ns

def descCount (n : Node) : Nat := descCountList n.replies

/-- Siblings ordered by `created` descending (every earlier element's key
is ≥ every later one's, in Python's string order). -/
def siblingsSortedDesc (l : List Node) : Prop :=
  List.Pairwise (fun a b => strLe b.created a.created) l

/-- The invariant of the child table: every entry stored under a parent key
names that parent as the last element of its references chain. -/
def TableInv (t : List (String × List RawAnn)) : Prop :=
  ∀ p l, tableGet t p = some l → ∀ a ∈ l, a.references.getLast? = some p

/-- The claimed shape of every node of a reply tree: reply_count counts all
descendants, the children are sorted newest-first, and every child's direct
parent (last reference) is this node. -/
inductive GoodNode : Node → Prop where
  | intro (n : Node)
      (hcount : n.reply_count = descCount n)
      (hsorted : siblingsSortedDesc n.replies)
      (hparent : ∀ c ∈ n.replies, c.references.getLast? = some n.id)
      (hchildren : ∀ c ∈ n.replies, GoodNode c) :
      GoodNode n

/-! ## Theorems -/

/-! ### ACL lemmas -/

theorem resolveRole_recognized (role : String) (h : recognizedRole role) :
    resolveRole role = .ok (specPrincipal role) := by
  rcases h with ⟨hg, hc⟩ | ⟨hg, ha⟩
  · unfold resolveRole specPrincipal
    rw [if_pos hg]
    by_cases hw : role = "group:__world__"
    · simp [hw]
    · rw [if_neg hw, if_neg hw]
      by_cases hau : role = "group:__authenticated__"
      · simp [hau]
      · rw [if_neg hau, if_neg hau, if_neg hc]
  · unfold resolveRole specPrincipal
    rw [if_neg (by simpa using hg), if_pos ha]
    have hw : role ≠ "group:__world__" := by
      intro e; rw [e] at ha; exact absurd ha (by decide)
    have hau : role ≠ "group:__authenticated__" := by
      intro e; rw [e] at ha; exact absurd ha (by decide)
    rw [if_neg hw, if_neg hau]

theorem rulesForAction_recognized (action : String) (roles : List String)
    (h : ∀ role ∈ roles, recognizedRole role) :
    rulesForAction action roles =
      .ok (roles.map fun role =>
        { principal := specPrincipal role, action := .act action }) := by
  induction roles with
  | nil => rfl
  | cons r rs ih =>
    have hr := resolveRole_recognized r (h r (List.mem_cons_self r rs))
    have hrest := ih fun role hm => h role (List.mem_cons_of_mem r hm)
    simp [rulesForAction, hr, hrest]

theorem aclOfPermissions_recognized (perms : List (String × List String))
    (h : ∀ p ∈ perms, ∀ role ∈ p.2, recognizedRole role) :
    aclOfPermissions perms = .ok (specRules perms) := by
  induction perms with
  | nil => rfl
  | cons p ps ih =>
    obtain ⟨action, roles⟩ := p
    have h1 := rulesForAction_recognized action roles
      (h (action, roles) (List.mem_cons_self _ ps))
    have h2 := ih fun q hq => h q (List.mem_cons_of_mem _ hq)
    simp [aclOfPermissions, h1, h2, specRules]

theorem resolveRole_fatal (role : String) (h : fatalRole role) :
    ∃ e, resolveRole role = .error e := by
  rcases h with rfl | ⟨hg, ha⟩
  · exact ⟨.notImplementedError "API consumer groups", rfl⟩
  · refine ⟨.valueError ("Unrecognized role " ++ role), ?_⟩
    unfold resolveRole
    rw [if_neg (by simpa using hg), if_neg (by simpa using ha)]

theorem rulesForAction_fatal (action : String) (roles : List String)
    (h : ∃ role ∈ roles, fatalRole role) :
    ∃ e, rulesForAction action roles = .error e := by
  induction roles with
  | nil => simp at h
  | cons r rs ih =>
    rcases h with ⟨role, hm, hf⟩
    rcases List.mem_cons.mp hm with rfl | hm'
    · obtain ⟨e, he⟩ := resolveRole_fatal role hf
      exact ⟨e, by simp [rulesForAction, he]⟩
    · cases hres : resolveRole r with
      | error e => exact ⟨e, by simp [rulesForAction, hres]⟩
      | ok p =>
        obtain ⟨e, he⟩ := ih ⟨role, hm', hf⟩
        exact ⟨e, by simp [rulesForAction, hres, he]⟩

theorem aclOfPermissions_fatal (perms : List (String × List String))
    (h : ∃ p ∈ perms, ∃ role ∈ p.2, fatalRole role) :
    ∃ e, aclOfPermissions perms = .error e := by
  induction perms with
  | nil => simp at h
  | cons p ps ih =>
    obtain ⟨action, roles⟩ := p
    rcases h with ⟨q, hq, role, hrole, hf⟩
    rcases List.mem_cons.mp hq with rfl | hq'
    · obtain ⟨e, he⟩ := rulesForAction_fatal action roles ⟨role, hrole, hf⟩
      exact ⟨e, by simp [aclOfPermissions, he]⟩
    · cases hrs : rulesForAction action roles with
      | error e => exact ⟨e, by simp [aclOfPermissions, hrs]⟩
      | ok rs =>
        obtain ⟨e, he⟩ := ih ⟨q, hq', role, hrole, hf⟩
        exact ⟨e, by simp [aclOfPermissions, hrs, he]⟩

/-! ### Claim theorems: ACL -/

/-- C1: for a permissions mapping containing only recognized roles,
`__acl__` returns one (Allow, principal, action) rule per (action, role)
pair with the principal resolved as the spec states, and returns exactly
the single admin-party rule (Allow, Everyone, ALL_PERMISSIONS) whenever
that rule list is empty — in particular when permissions is absent or
empty (`perms = []`). -/
theorem acl_of_recognized_roles (perms : List (String × List String))
    (h : ∀ p ∈ perms, ∀ role ∈ p.2, recognizedRole role) :
    annotationAcl perms =
      .ok (if (specRules perms).isEmpty then
            [{ principal := .everyone, action := .allPermissions }]
          else specRules perms) := by
  unfold annotationAcl
  rw [aclOfPermissions_recognized perms h]
  by_cases he : (specRules perms).isEmpty <;> simp [he]

theorem acl_of_recognized_roles_witness :
    (∀ p ∈ ([("read", ["group:__world__", "acct:bob@example.com"])] :
        List (String × List String)), ∀ role ∈ p.2, recognizedRole role) ∧
    annotationAcl [("read", ["group:__world__", "acct:bob@example.com"])] =
      .ok (if (specRules
              [("read", ["group:__world__", "acct:bob@example.com"])]).isEmpty then
            [{ principal := .everyone, action := .allPermissions }]
          else specRules [("read", ["group:__world__", "acct:bob@example.com"])]) :=
  ⟨by decide, acl_of_recognized_roles _ (by decide)⟩

/-- C2: a permissions mapping containing, under any action, the role
`group:__consumer__` or a role starting with neither `group:` nor `acct:`
makes `__acl__` raise (NotImplementedError or ValueError) instead of
returning an ACL. -/
theorem acl_of_fatal_role (perms : List (String × List String))
    (h : ∃ p ∈ perms, ∃ role ∈ p.2, fatalRole role) :
    ∃ e, annotationAcl perms = .error e := by
  obtain ⟨e, he⟩ := aclOfPermissions_fatal perms h
  exact ⟨e, by simp [annotationAcl, he]⟩

theorem acl_of_fatal_role_witness :
    (∃ p ∈ ([("read", ["group:__consumer__"])] : List (String × List String)),
      ∃ role ∈ p.2, fatalRole role) ∧
    ∃ e, annotationAcl [("read", ["group:__consumer__"])] = .error e :=
  ⟨by decide, acl_of_fatal_role _ (by decide)⟩

/-! ### Quote lemmas -/

theorem foldl_append_eq_join (a : String) (l : List String) :
    l.foldl (· ++ ·) a = a ++ String.join l := by
  induction l generalizing a with
  | nil => simp [String.join, String.append_empty]
  | cons s rest ih =>
    show rest.foldl (· ++ ·) (a ++ s) = a ++ String.join (s :: rest)
    rw [ih]
    show _ = a ++ List.foldl (· ++ ·) ("" ++ s) rest
    rw [String.empty_append, ih, String.append_assoc]

theorem string_join_cons (s : String) (l : List String) :
    String.join (s :: l) = s ++ String.join l := by
  show List.foldl (· ++ ·) ("" ++ s) l = s ++ String.join l
  rw [String.empty_append, foldl_append_eq_join]

theorem string_join_append (a b : List String) :
    String.join (a ++ b) = String.join a ++ String.join b := by
  induction a with
  | nil =>
    show String.join b = String.join [] ++ String.join b
    rw [show String.join [] = "" from rfl, String.empty_append]
  | cons s rest ih =>
    rw [List.cons_append, string_join_cons, string_join_cons, ih,
      String.append_assoc]

theorem quoteOfSelectors_eq (q : String) (sels : List Selector) :
    quoteOfSelectors q sels =
      q ++ String.join ((sels.filterMap fun s =>
        if s.type_ = "TextQuoteSelector" then some s.exact else none).map
          fun e => e ++ " ") := by
  induction sels generalizing q with
  | nil => simp [quoteOfSelectors, String.append_empty, String.join]
  | cons s rest ih =>
    by_cases ht : s.type_ = "TextQuoteSelector"
    · simp [quoteOfSelectors, ht, List.filterMap_cons, string_join_cons, ih,
        String.append_assoc]
    · simp [quoteOfSelectors, ht, List.filterMap_cons, ih]

theorem quote_foldl_eq (q : String) (ts : List Target) :
    ts.foldl (fun q t => quoteOfSelectors q t.selector) q =
      q ++ String.join ((textQuoteExacts ts).map fun e => e ++ " ") := by
  induction ts generalizing q with
  | nil => simp [textQuoteExacts, String.append_empty, String.join]
  | cons t rest ih =>
    show rest.foldl _ (quoteOfSelectors q t.selector) = _
    rw [ih, quoteOfSelectors_eq]
    simp only [textQuoteExacts, List.flatMap_cons, List.map_append,
      string_join_append, String.append_assoc]

/-! ### Claim theorems: quote -/

/-- C3 counterexample: on an annotation with two TextQuoteSelector exact
values "a" and "b", `quote` yields "a b " (each exact followed by a
space), not the space-joined "a b" the claim states. -/
theorem quote_claim_counterexample :
    quote (some [{ selector := [{ type_ := "TextQuoteSelector", exact := "a" }] },
                 { selector := [{ type_ := "TextQuoteSelector", exact := "b" }] }]) ≠
      String.intercalate " "
        (textQuoteExacts
          [{ selector := [{ type_ := "TextQuoteSelector", exact := "a" }] },
           { selector := [{ type_ := "TextQuoteSelector", exact := "b" }] }]) := by
  decide

/-- C3 amended: `quote` returns the empty string when the annotation has no
`target` key, and otherwise the concatenation of the `exact` values of
every TextQuoteSelector selector across all targets, each exact followed by
one space (so the result carries a trailing space whenever any exact was
found). -/
theorem quote_space_terminated (target? : Option (List Target)) :
    quote target? =
      match target? with
      | none => ""
      | some ts => String.join ((textQuoteExacts ts).map fun e => e ++ " ") := by
  match target? with
  | none => rfl
  | some ts =>
    show ts.foldl (fun q t => quoteOfSelectors q t.selector) "" = _
    rw [quote_foldl_eq, String.empty_append]

/-! ### Presentation-service lemmas -/

theorem dictUpdate_apply (d m : JsonDict V) (k : String) :
    dictUpdate d m k = (m k).or (d k) := by
  unfold dictUpdate
  cases m k <;> rfl

theorem present_foldl_or {Ann V : Type} (g : List (Ann → JsonDict V)) (a : Ann)
    (base : JsonDict V) (k : String) :
    (g.foldl (fun data f => dictUpdate data (f a)) base) k =
      (g.reverse.findSome? fun f => f a k).or (base k) := by
  induction g generalizing base with
  | nil => simp
  | cons f fs ih =>
    show (fs.foldl (fun data f => dictUpdate data (f a)) (dictUpdate base (f a))) k = _
    rw [ih, dictUpdate_apply]
    simp [List.findSome?_append, Option.or_assoc, List.findSome?_cons]
    cases f a k <;> rfl

/-! ### Claim theorems: presentation, codec, index settings -/

/-- C7: `present` returns the base presenter dictionary overlaid, in
configured-formatter order, with each formatter's format result: at every
key the final value is the one of the last formatter (in configured order)
that emits that key, or the base presenter's value when no formatter emits
it. -/
theorem present_last_formatter_wins (asdict : AnnotationResource Ann → JsonDict V)
    (formatters : List (Ann → JsonDict V)) (r : AnnotationResource Ann)
    (k : String) :
    present asdict formatters r k =
      (formatters.reverse.findSome? fun f => f r.ann k).or (asdict r k) := by
  unfold present
  rw [present_foldl_or]

/-- C8: the JSON codec round-trips every mapping — given that the
underlying serializer pair satisfies loads-of-dumps identity (Python's
json module, an external collaborator), reading back a bound value yields
the original, and None maps to None in both directions. -/
theorem json_codec_round_trip (dumps : α → String) (loads : String → α)
    (h : ∀ v, loads (dumps v) = v) (v? : Option α) :
    process_result_value loads (process_bind_param dumps v?) = v? := by
  cases v? with
  | none => rfl
  | some v => simp [process_bind_param, process_result_value, h]

theorem json_codec_round_trip_witness :
    process_result_value (fun s => s == "true")
        (process_bind_param (fun b : Bool => if b then "true" else "false")
          (some true)) = some true :=
  json_codec_round_trip _ _ (by decide) (some true)

/-- C9: `update_settings` reopens the index after closing it for every
outcome of the settings-application step: the final index state is open
even when the put raises, and the put's exception is still reported. -/
theorem update_settings_always_reopens (put : ESIndex σ → Except ε (ESIndex σ))
    (s : ESIndex σ) :
    (update_settings put s).2.opened = true ∧
    (update_settings put s).1 =
      (match put (closeIndex s) with
      | .ok _ => none
      | .error e => some e) := by
  unfold update_settings
  cases h : put (closeIndex s) <;> simp [h, openIndex]

/-! ### Flag-formatter lemmas -/

theorem any_congr_mem {l : List α} {p q : α → Bool} (h : ∀ a ∈ l, p a = q a) :
    l.any p = l.any q := by
  induction l with
  | nil => rfl
  | cons a rest ih =>
    simp only [List.any_cons, h a (List.mem_cons_self a rest),
      ih fun b hb => h b (List.mem_cons_of_mem a hb)]

theorem foldl_insert_true (l : List Flag) (c : Cache) (i : String) :
    (l.foldl (fun c f => cacheInsert c f.annotation_id true) c) i =
      if l.any (fun f => f.annotation_id == i) then some true else c i := by
  induction l generalizing c with
  | nil => simp
  | cons f fs ih =>
    show (fs.foldl _ (cacheInsert c f.annotation_id true)) i = _
    rw [ih]
    by_cases hany : fs.any (fun f => f.annotation_id == i) = true
    · simp [hany]
    · simp only [List.any_cons, hany, Bool.or_false, cacheInsert]
      by_cases hfi : i = f.annotation_id
      · simp [hfi]
      · rw [if_neg hfi, beq_false_of_ne fun e => hfi e.symm]

theorem foldl_insert_false (l : List String) (c : Cache) (j : String) :
    (l.foldl (fun c i => cacheInsert c i false) c) j =
      if j ∈ l then some false else c j := by
  induction l generalizing c with
  | nil => simp
  | cons i is ih =>
    show (is.foldl _ (cacheInsert c i false)) j = _
    rw [ih]
    by_cases hmem : j ∈ is
    · simp [hmem]
    · simp only [hmem, if_false, cacheInsert, List.mem_cons]
      by_cases hji : j = i
      · simp [hji]
      · simp [hji, hmem]

/-! ### Claim theorems: flag formatter -/

/-- C5: preloading a batch of ids with an authenticated user issues exactly
one query and caches a definite boolean for every requested id — True
exactly when a flag row for (id, user) exists, False otherwise — so that a
subsequent load of any id of the batch returns that boolean from the cache
with no further query and no state change. -/
theorem preload_caches_every_id (db : List Flag) (ids : List String)
    (u : String) (id_ : String) (hmem : id_ ∈ ids) :
    (preload db ids (FlagFormatter.init (some u))).2 = 1 ∧
    (preload db ids (FlagFormatter.init (some u))).1.cache id_ =
      some (hasFlag db id_ u) ∧
    load db id_ (preload db ids (FlagFormatter.init (some u))).1 =
      .ok (hasFlag db id_ u,
        (preload db ids (FlagFormatter.init (some u))).1, 0) := by
  have hcache : (preload db ids (FlagFormatter.init (some u))).1.cache id_ =
      some (hasFlag db id_ u) := by
    show ((ids.filter fun i =>
        ((db.filter fun f => ids.contains f.annotation_id ∧ f.user = u).foldl
          (fun c f => cacheInsert c f.annotation_id true)
          (FlagFormatter.init (some u)).cache) i = none).foldl
            (fun c i => cacheInsert c i false)
            ((db.filter fun f => ids.contains f.annotation_id ∧ f.user = u).foldl
              (fun c f => cacheInsert c f.annotation_id true)
              (FlagFormatter.init (some u)).cache)) id_ = _
    have hquery : ((db.filter fun f =>
        ids.contains f.annotation_id ∧ f.user = u).any
          fun f => f.annotation_id == id_) = hasFlag db id_ u := by
      rw [List.any_filter]
      unfold hasFlag
      refine any_congr_mem fun f _ => ?_
      by_cases haid : f.annotation_id = id_
      · by_cases hu : f.user = u <;> simp [haid, hu, hmem]
      · rw [beq_false_of_ne haid]
        simp
    rw [foldl_insert_false, foldl_insert_true, hquery]
    by_cases hf : hasFlag db id_ u
    · have hnone : ¬ (id_ ∈ ids.filter fun i =>
          ((db.filter fun f => ids.contains f.annotation_id ∧ f.user = u).foldl
            (fun c f => cacheInsert c f.annotation_id true)
            (FlagFormatter.init (some u)).cache) i = none) := by
        intro hin
        have := (List.mem_filter.mp hin).2
        rw [foldl_insert_true, hquery] at this
        simp [hf] at this
      rw [if_neg hnone]
      simp [hf]
    · have hsome : id_ ∈ ids.filter fun i =>
          ((db.filter fun f => ids.contains f.annotation_id ∧ f.user = u).foldl
            (fun c f => cacheInsert c f.annotation_id true)
            (FlagFormatter.init (some u)).cache) i = none := by
        refine List.mem_filter.mpr ⟨hmem, ?_⟩
        rw [foldl_insert_true, hquery]
        simp [hf, FlagFormatter.init]
      rw [if_pos hsome]
      rw [Bool.not_eq_true] at hf
      simp [hf]
  refine ⟨rfl, hcache, ?_⟩
  show load db id_
    { authenticated_user := some u,
      cache := (preload db ids (FlagFormatter.init (some u))).1.cache } = _
  unfold load
  simp only [hcache]
  rfl

theorem preload_caches_every_id_witness :
    ("b" ∈ ["a", "b"]) ∧
    ((preload [{ annotation_id := "a", user := "u" }] ["a", "b"]
        (FlagFormatter.init (some "u"))).2 = 1 ∧
    (preload [{ annotation_id := "a", user := "u" }] ["a", "b"]
        (FlagFormatter.init (some "u"))).1.cache "b" =
      some (hasFlag [{ annotation_id := "a", user := "u" }] "b" "u") ∧
    load [{ annotation_id := "a", user := "u" }] "b"
        (preload [{ annotation_id := "a", user := "u" }] ["a", "b"]
          (FlagFormatter.init (some "u"))).1 =
      .ok (hasFlag [{ annotation_id := "a", user := "u" }] "b" "u",
        (preload [{ annotation_id := "a", user := "u" }] ["a", "b"]
          (FlagFormatter.init (some "u"))).1, 0)) :=
  ⟨by decide, preload_caches_every_id _ _ _ _ (by decide)⟩

/-- C6: with no authenticated user the formatter never errors: preload is a
no-op issuing no query, load returns False from the unchanged state with no
query, and format returns the single pair ("flagged", False). -/
theorem flag_formatter_no_user (db : List Flag) (ids : List String)
    (id_ : String) (annId : String) (st : FlagFormatter)
    (h : st.authenticated_user = none) :
    preload db ids st = (st, 0) ∧
    load db id_ st = .ok (false, st, 0) ∧
    formatFlag db annId st = .ok (("flagged", false), st, 0) := by
  refine ⟨?_, ?_, ?_⟩ <;> simp [preload, load, formatFlag, h]

/-! ### Reply-tree lemmas -/

theorem mem_insertDesc {a x : RawAnn} {l : List RawAnn} :
    x ∈ insertDesc a l ↔ x = a ∨ x ∈ l := by
  induction l with
  | nil => simp [insertDesc]
  | cons b bs ih =>
    unfold insertDesc
    by_cases h : strLe b.created a.created = true
    · simp [h, List.mem_cons]
    · simp [h, List.mem_cons, ih]
      tauto

theorem mem_sortDesc {x : RawAnn} {l : List RawAnn} :
    x ∈ sortDesc l ↔ x ∈ l := by
  induction l with
  | nil => simp [sortDesc]
  | cons a as ih =>
    show x ∈ insertDesc a (sortDesc as) ↔ _
    simp [mem_insertDesc, ih]

theorem charListLe_trans : ∀ {a b c : List Char},
    charListLe a b = true → charListLe b c = true → charListLe a c = true := by
  intro a
  induction a with
  | nil => intro b c _ _; rfl
  | cons x xs ih =>
    intro b c hab hbc
    cases b with
    | nil => simp [charListLe] at hab
    | cons y ys =>
      cases c with
      | nil => simp [charListLe] at hbc
      | cons z zs =>
        simp only [charListLe] at hab hbc ⊢
        split_ifs at hab hbc ⊢ <;>
          first
          | rfl
          | (exact ih hab hbc)
          | omega

theorem charListLe_total : ∀ {a b : List Char},
    charListLe a b = false → charListLe b a = true := by
  intro a
  induction a with
  | nil => intro b h; cases h
  | cons x xs ih =>
    intro b h
    cases b with
    | nil => rfl
    | cons y ys =>
      simp only [charListLe] at h ⊢
      split_ifs at h ⊢ <;>
        first
        | rfl
        | (exact ih h)

theorem strLe_trans {a b c : String} (hab : strLe a b = true)
    (hbc : strLe b c = true) : strLe a c = true :=
  charListLe_trans hab hbc

theorem strLe_total {a b : String} (h : ¬ strLe a b = true) :
    strLe b a = true :=
  charListLe_total (Bool.not_eq_true _ ▸ h)

theorem insertDesc_pairwise {a : RawAnn} {l : List RawAnn}
    (h : List.Pairwise (fun a b => strLe b.created a.created) l) :
    List.Pairwise (fun a b => strLe b.created a.created) (insertDesc a l) := by
  induction l with
  | nil => simp [insertDesc]
  | cons b bs ih =>
    rcases List.pairwise_cons.mp h with ⟨hb, hbs⟩
    unfold insertDesc
    by_cases hba : strLe b.created a.created = true
    · rw [if_pos hba]
      refine List.pairwise_cons.mpr ⟨?_, h⟩
      intro x hx
      rcases List.mem_cons.mp hx with rfl | hx'
      · exact hba
      · exact strLe_trans (hb x hx') hba
    · rw [if_neg hba]
      refine List.pairwise_cons.mpr ⟨?_, ih hbs⟩
      intro x hx
      rcases mem_insertDesc.mp hx with rfl | hx'
      · exact strLe_total hba
      · exact hb x hx'

theorem sortDesc_pairwise (l : List RawAnn) :
    List.Pairwise (fun a b => strLe b.created a.created) (sortDesc l) := by
  induction l with
  | nil => simp [sortDesc]
  | cons a as ih =>
    show List.Pairwise _ (insertDesc a (sortDesc as))
    exact insertDesc_pairwise ih

theorem tableGet_tableAppend (t : List (String × List RawAnn)) (k : String)
    (a : RawAnn) (p : String) :
    tableGet (tableAppend t k a) p =
      if p = k then some (((tableGet t k).getD []) ++ [a])
      else tableGet t p := by
  induction t with
  | nil =>
    by_cases h : p = k
    · subst h
      simp [tableAppend, tableGet]
    · simp [tableAppend, tableGet, h, Ne.symm h]
  | cons e rest ih =>
    obtain ⟨k', l⟩ := e
    by_cases hk : k' = k
    · subst hk
      by_cases hp : p = k'
      · subst hp
        simp [tableAppend, tableGet]
      · simp [tableAppend, tableGet, hp, Ne.symm hp]
    · by_cases hp : p = k'
      · subst hp
        simp [tableAppend, tableGet, hk]
      · simp [tableAppend, tableGet, hk, hp, Ne.symm hp, ih]

theorem tableInv_nil : TableInv [] := by
  intro p l hl
  cases hl

theorem tableInv_append {t : List (String × List RawAnn)} (hinv : TableInv t)
    {k : String} {a : RawAnn} (ha : a.references.getLast? = some k) :
    TableInv (tableAppend t k a) := by
  intro p l hl x hx
  rw [tableGet_tableAppend] at hl
  by_cases hp : p = k
  · subst hp
    rw [if_pos rfl] at hl
    injection hl with hl'
    subst hl'
    rcases List.mem_append.mp hx with hx' | hx'
    · cases hg : tableGet t p with
      | none => rw [hg] at hx'; simp at hx'
      | some l0 =>
        rw [hg] at hx'
        exact hinv p l0 hg x hx'
    · rw [List.mem_singleton.mp hx']
      exact ha
  · rw [if_neg hp] at hl
    exact hinv p l hl x hx

theorem buildChildTableAux_inv (l : List RawAnn) :
    ∀ t t', TableInv t → buildChildTableAux t l = .ok t' → TableInv t' := by
  induction l with
  | nil =>
    intro t t' hinv h
    injection h with h'
    exact h' ▸ hinv
  | cons r rs ih =>
    intro t t' hinv h
    unfold buildChildTableAux at h
    cases hlast : r.references.getLast? with
    | none => rw [hlast] at h; cases h
    | some parent =>
      rw [hlast] at h
      exact ih _ _ (tableInv_append hinv hlast) h

theorem buildChildTable_inv (referrers : List RawAnn)
    (table : List (String × List RawAnn))
    (h : buildChildTable referrers = .ok table) : TableInv table :=
  buildChildTableAux_inv referrers [] table tableInv_nil h

theorem buildChildTableAux_error (l : List RawAnn) :
    ∀ t, (∃ r ∈ l, r.references = []) →
      buildChildTableAux t l = .error "IndexError" := by
  induction l with
  | nil => intro t h; simp at h
  | cons r rs ih =>
    intro t h
    rcases h with ⟨x, hx, hempty⟩
    rcases List.mem_cons.mp hx with rfl | hx'
    · unfold buildChildTableAux
      rw [hempty]
      rfl
    · unfold buildChildTableAux
      cases hlast : r.references.getLast? with
      | none => rfl
      | some parent => exact ih _ ⟨x, hx', hempty⟩

theorem flag_formatter_no_user_witness :
    preload [] ["a"] (FlagFormatter.init none) = (FlagFormatter.init none, 0) ∧
    load [] "a" (FlagFormatter.init none) = .ok (false, FlagFormatter.init none, 0) ∧
    formatFlag [] "a" (FlagFormatter.init none) =
      .ok (("flagged", false), FlagFormatter.init none, 0) :=
  flag_formatter_no_user [] ["a"] "a" "a" (FlagFormatter.init none) rfl

theorem descCountList_eq_sum (l : List Node) :
    descCountList l = (l.map fun c => 1 + descCount c).sum := by
  induction l with
  | nil => simp [descCountList]
  | cons c cs ih =>
    cases c with
    | mk i cr refs rc rs =>
      rw [descCountList, ih]
      simp [descCount, Node.replies]

theorem sum_map_one_add (l : List Node) (g : Node → Nat) :
    (l.map fun c => 1 + g c).sum = l.length + (l.map g).sum := by
  induction l with
  | nil => rfl
  | cons c cs ih =>
    simp only [List.map_cons, List.sum_cons, List.length_cons, ih]
    omega

theorem nestlist_sorted (fuel : Nat) (table : List (String × List RawAnn))
    (anns? : Option (List RawAnn)) :
    siblingsSortedDesc (nestlist fuel table anns?) := by
  unfold siblingsSortedDesc
  cases anns? with
  | none => cases fuel <;> exact List.Pairwise.nil
  | some anns =>
    cases fuel with
    | zero => exact List.Pairwise.nil
    | succ f =>
      show List.Pairwise _ ((sortDesc anns).map _)
      rw [List.pairwise_map]
      exact sortDesc_pairwise anns

theorem nestlist_parent (fuel : Nat) (table : List (String × List RawAnn))
    (hinv : TableInv table) (p : String) :
    ∀ n ∈ nestlist fuel table (tableGet table p),
      n.references.getLast? = some p := by
  intro n hn
  cases hg : tableGet table p with
  | none => rw [hg] at hn; cases fuel <;> cases hn
  | some l =>
    rw [hg] at hn
    cases fuel with
    | zero => cases hn
    | succ f =>
      obtain ⟨a, ha, rfl⟩ := List.mem_map.mp hn
      exact hinv p l hg a (mem_sortDesc.mp ha)

theorem nestlist_good (fuel : Nat) :
    ∀ (table : List (String × List RawAnn)), TableInv table →
      ∀ (anns? : Option (List RawAnn)), ∀ n ∈ nestlist fuel table anns?,
        GoodNode n := by
  induction fuel with
  | zero =>
    intro table hinv anns? n hn
    cases anns? <;> cases hn
  | succ f ih =>
    intro table hinv anns? n hn
    cases anns? with
    | none => cases hn
    | some anns =>
      obtain ⟨a, ha, rfl⟩ := List.mem_map.mp hn
      have hgood : ∀ c ∈ nestlist f table (tableGet table a.id), GoodNode c :=
        fun c hc => ih table hinv _ c hc
      refine GoodNode.intro _ ?_ ?_ ?_ hgood
      · show ((nestlist f table (tableGet table a.id)).map Node.reply_count).sum +
            (nestlist f table (tableGet table a.id)).length =
          descCountList (nestlist f table (tableGet table a.id))
        have hcounts : (nestlist f table (tableGet table a.id)).map Node.reply_count =
            (nestlist f table (tableGet table a.id)).map descCount :=
          List.map_congr_left fun c hc => by
            cases hgood c hc with
            | intro _ hcount _ _ _ => exact hcount
        rw [hcounts, descCountList_eq_sum, sum_map_one_add]
        omega
      · exact nestlist_sorted f table _
      · intro c hc
        exact nestlist_parent f table hinv a.id c hc

/-! ### Claim theorems: reply trees -/

/-- C4: whenever `replies` returns a tree, the top-level siblings are
sorted by `created` descending and each cites this annotation as its
direct parent, and every node of the tree has `reply_count` equal to its
total number of descendants at all depths, children sorted by `created`
descending, and children whose last reference is the node's own id (the
direct-parent grouping). -/
theorem replies_tree_shape (fuel : Nat) (selfId : String)
    (referrers : List RawAnn) (t : List Node)
    (h : replies fuel selfId referrers = .ok t) :
    siblingsSortedDesc t ∧
    (∀ n ∈ t, n.references.getLast? = some selfId) ∧
    (∀ n ∈ t, GoodNode n) := by
  unfold replies at h
  cases hb : buildChildTable referrers with
  | error e => rw [hb] at h; cases h
  | ok table =>
    rw [hb] at h
    injection h with h'
    subst h'
    have hinv : TableInv table := buildChildTable_inv referrers table hb
    exact ⟨nestlist_sorted fuel table _,
      fun n hn => nestlist_parent fuel table hinv selfId n hn,
      fun n hn => nestlist_good fuel table hinv _ n hn⟩

theorem replies_tree_shape_witness :
    (replies 2 "root"
        [{ id := "b", created := "2021", references := ["root"] },
         { id := "a", created := "2020", references := ["root"] }] =
      .ok [Node.mk "b" "2021" ["root"] 0 [],
           Node.mk "a" "2020" ["root"] 0 []]) ∧
    (siblingsSortedDesc
        [Node.mk "b" "2021" ["root"] 0 [], Node.mk "a" "2020" ["root"] 0 []] ∧
     (∀ n ∈ [Node.mk "b" "2021" ["root"] 0 [], Node.mk "a" "2020" ["root"] 0 []],
        n.references.getLast? = some "root") ∧
     (∀ n ∈ [Node.mk "b" "2021" ["root"] 0 [], Node.mk "a" "2020" ["root"] 0 []],
        GoodNode n)) :=
  ⟨rfl, replies_tree_shape 2 "root"
    [{ id := "b", created := "2021", references := ["root"] },
     { id := "a", created := "2020", references := ["root"] }]
    [Node.mk "b" "2021" ["root"] 0 [], Node.mk "a" "2020" ["root"] 0 []] rfl⟩

/-- C10: `replies` is partial over its referrers: any referrer whose
`references` chain is missing or empty makes the parent lookup
`reply.get('references', [])[-1]` raise IndexError, so `replies` succeeds
only when every referrer carries a non-empty references chain. -/
theorem replies_raises_on_empty_references (fuel : Nat) (selfId : String)
    (referrers : List RawAnn) (h : ∃ r ∈ referrers, r.references = []) :
    replies fuel selfId referrers = .error "IndexError" := by
  unfold replies buildChildTable
  rw [buildChildTableAux_error referrers [] h]

theorem replies_raises_on_empty_references_witness :
    (∃ r ∈ [({ id := "a", created := "2020", references := [] } : RawAnn)],
      r.references = []) ∧
    replies 1 "root" [{ id := "a", created := "2020", references := [] }] =
      .error "IndexError" :=
  ⟨by decide, replies_raises_on_empty_references 1 "root"
    [{ id := "a", created := "2020", references := [] }] (by decide)⟩

end H
